import Mathlib

/-!
Shallow embedding of src/utils.py (incremental-learning utility module).

Conventions of the embedding:
- Integer tensors are lists of integers; a batch of feature vectors is a
  function Fin batch → Fin features → ℝ (real numbers idealise the
  floating-point arithmetic of the source).
- A Python function that can raise, or that can fall through and return
  None, returns an Option; none models the exception or the None value.
- The reverse-index collaborator (label remapping) is modelled by its
  contract: an elementwise integer map applied to a batch.
-/

namespace Progetto

/-- The labels argument of map_to_outputs: a plain Python int, a torch
tensor of integer labels (modelled as a list), or a value of any other
type (a Python list, a numpy integer, ...). -/
inductive Labels where
  | int (n : ℤ)
  | tensor (t : List ℤ)
  | other
  deriving DecidableEq

/-- Collaborator contract of the reverse index: getNodes maps a tensor of
raw labels elementwise to remapped output indices. -/
def getNodes (f : ℤ → ℤ) (t : List ℤ) : List ℤ := t.map f

/-- map_to_outputs from src/utils.py lines 80-86: if reverse_index is None
the labels are returned unchanged; otherwise an int label is remapped
through a singleton tensor and a tensor is remapped as a batch; any other
type falls through both branches and the function returns Python None
(modelled as none). -/
def map_to_outputs (labels : Labels) (reverse_index : Option (ℤ → ℤ)) : Option Labels :=
  match reverse_index with
  | none => some labels
  | some f =>
    match labels with
    | .int n => some (.int (f n))
    | .tensor t => some (.tensor (getNodes f t))
    | .other => none

/-- The batch remapping performed on the labels tensor inside
_one_hot_encode: identity when the reverse index is absent, getNodes
otherwise (the tensor branch of map_to_outputs). -/
def mapBatch (labels : List ℤ) (reverse_index : Option (ℤ → ℤ)) : List ℤ :=
  match reverse_index with
  | none => labels
  | some f => getNodes f labels

/-- Python item assignment row[l] = v on a 1-D integer tensor, with PyTorch
index semantics: an index 0 ≤ l < len writes at position l, a negative
index with -len ≤ l < 0 writes at position len + l, and any other index
raises IndexError (modelled as none). -/
def tensorSetItem (row : List ℤ) (l : ℤ) (v : ℤ) : Option (List ℤ) :=
  if 0 ≤ l ∧ l < (row.length : ℤ) then some (row.set l.toNat v)
  else if -(row.length : ℤ) ≤ l ∧ l < 0 then some (row.set (l + row.length).toNat v)
  else none

/-- _one_hot_encode from src/utils.py lines 72-78: build a batch × n_classes
zero matrix, remap the labels, then write a 1 at (i, mapped label i) for
every row. Each row of the zero matrix is written exactly once, so the
loop is a mapM of the single-row write over the mapped labels; an
out-of-range index raises (none). -/
def _one_hot_encode (labels : List ℤ) (n_classes : ℕ)
    (reverse_index : Option (ℤ → ℤ)) : Option (List (List ℤ)) :=
  (mapBatch labels reverse_index).mapM fun l =>
    tensorSetItem (List.replicate n_classes 0) l 1

/-- torch.utils.data.Subset: a view of a base dataset through a list of
indices. -/
structure Subset (α : Type) where
  dataset : α
  indices : List ℤ

/-- joinSubsets from src/utils.py lines 139-143: concatenate the index
lists of the given subsets in input order over the same base dataset. -/
def joinSubsets {α : Type} (dataset : α) (subsets : List (Subset α)) : Subset α :=
  ⟨dataset, subsets.foldl (fun acc s => acc ++ s.indices) []⟩

/-- A value of the heterogeneous hyperparameter dictionary: a number, a
string, or a list of epoch indices. -/
inductive HyperValue where
  | num (q : ℚ)
  | str (s : String)
  | list (l : List ℕ)
  deriving DecidableEq

/-- getHyperparams from src/utils.py lines 25-39: the fixed default iCaRL
hyperparameter dictionary, in insertion order. -/
def getHyperparams : List (String × HyperValue) :=
  [("LR", .num 2),
   ("MOMENTUM", .num (9 / 10)),
   ("WEIGHT_DECAY", .num (1 / 100000)),
   ("NUM_EPOCHS", .num 70),
   ("MILESTONES", .list [49, 63]),
   ("BATCH_SIZE", .num 128),
   ("DEVICE", .str "cuda"),
   ("GAMMA", .num (2 / 10)),
   ("SEED", .num 66),
   ("LOG_FREQUENCY", .num 10),
   ("NUM_CLASSES", .num 100)]

/-- The record writeMetrics serialises to JSON: a list of
{class-count : accuracy} singleton mappings (modelled as pairs) and a list
of {row-index : row-values} singleton mappings. -/
structure MetricsData (α β : Type) where
  accuracies : List (ℕ × α)
  cm : List (ℕ × List β)
  deriving DecidableEq

/-- writeMetrics from src/utils.py lines 119-137: for classes_seen in
range(10, 110, 10) append {classes_seen : accuracies[i]} with i = 0..9
(accuracies[i] raises IndexError when accuracies is shorter, modelled as
none), then for every row j of the confusion matrix append {j : row j}.
The method and seed arguments only name the output file, which is outside
this embedding. -/
def writeMetrics {α β : Type} (_method : String) (_seed : ℤ)
    (accuracies : List α) (confusionMatrixData : List (List β)) :
    Option (MetricsData α β) :=
  match (List.range' 10 10 10).enum.mapM
      (fun p => (accuracies.get? p.1).map fun a => (p.2, a)) with
  | none => none
  | some accs => some ⟨accs, confusionMatrixData.enum⟩

/-- torch.norm(v, 2): the Euclidean norm of a 1-D tensor. -/
noncomputable def l2norm {m : ℕ} (v : Fin m → ℝ) : ℝ :=
  Real.sqrt (∑ k, v k * v k)

/-- F.normalize(x, p=2, dim=1): divide every row of a 2-D tensor by its
Euclidean norm (the eps clamp of the source only matters for rows of norm
below 1e-12; for an exactly zero row both the source and the Lean
division-by-zero convention produce the zero row). -/
noncomputable def normalizeRows {a m : ℕ} (x : Fin a → Fin m → ℝ) :
    Fin a → Fin m → ℝ :=
  fun i k => x i k / l2norm (x i)

/-- F.linear(x, w) = x wᵀ: entry (i, j) is the dot product of input row i
with weight row j. -/
noncomputable def linear {b m o : ℕ} (x : Fin b → Fin m → ℝ)
    (w : Fin o → Fin m → ℝ) : Fin b → Fin o → ℝ :=
  fun i j => ∑ k, x i k * w j k

/-- L_G_dist_scalar from src/utils.py lines 146-149: L2-normalize the two
1-D feature vectors and return 1 minus their dot product. -/
noncomputable def L_G_dist_scalar {m : ℕ} (feat_old_1d feat_new_1d : Fin m → ℝ) : ℝ :=
  1 - ∑ k, (feat_old_1d k / l2norm feat_old_1d) * (feat_new_1d k / l2norm feat_new_1d)

/-- The value returned by L_G_dist: a scalar (after mean or sum reduction)
or the unreduced per-row tensor. -/
inductive LGResult (n : ℕ) where
  | scalar (x : ℝ)
  | vector (v : Fin n → ℝ)

/-- L_G_dist from src/utils.py lines 151-159: per-row cosine distances of
a batch of paired old/new feature vectors, reduced by mean (sum divided by
the batch size), by sum, or left unreduced for any other reduce string. -/
noncomputable def L_G_dist {n m : ℕ} (feat_old feat_new : Fin n → Fin m → ℝ)
    (reduce : String) : LGResult n :=
  let result : Fin n → ℝ := fun i => L_G_dist_scalar (feat_old i) (feat_new i)
  if reduce = "mean" then .scalar ((∑ i, result i) / n)
  else if reduce = "sum" then .scalar (∑ i, result i)
  else .vector result

/-- CosineNormalizationLayer state: a weight matrix of shape
out_features × in_features and an optional learnable scalar sigma. -/
structure CosineNormalizationLayer (in_features out_features : ℕ) where
  weight : Fin out_features → Fin in_features → ℝ
  sigma : Option ℝ

/-- CosineNormalizationLayer.forward from src/utils.py lines 184-196:
linear projection of the row-normalized input against the row-normalized
weight, multiplied by sigma when that parameter is present. -/
noncomputable def CosineNormalizationLayer.forward {nin nout b : ℕ}
    (layer : CosineNormalizationLayer nin nout) (input : Fin b → Fin nin → ℝ) :
    Fin b → Fin nout → ℝ :=
  let out := linear (normalizeRows input) (normalizeRows layer.weight)
  match layer.sigma with
  | some s => fun i j => s * out i j
  | none => out

/-- Spec-side definition (section 4.12 of the spec): the cosine similarity
of two vectors, dot product divided by the product of the norms. -/
noncomputable def cosineSim {m : ℕ} (u v : Fin m → ℝ) : ℝ :=
  (∑ k, u k * v k) / (l2norm u * l2norm v)

/-- The scale factor the spec attributes to the forward pass: sigma when
the parameter is present, 1 (no scaling) when it is absent. -/
def sigVal : Option ℝ → ℝ
  | some s => s
  | none => 1

lemma sum_mul_self_nonneg {m : ℕ} (v : Fin m → ℝ) : 0 ≤ ∑ k, v k * v k :=
  Finset.sum_nonneg fun k _ => mul_self_nonneg (v k)

lemma l2norm_mul_self {m : ℕ} (v : Fin m → ℝ) :
    l2norm v * l2norm v = ∑ k, v k * v k :=
  Real.mul_self_sqrt (sum_mul_self_nonneg v)

lemma sum_mul_self_pos {m : ℕ} {v : Fin m → ℝ} (hv : v ≠ 0) :
    0 < ∑ k, v k * v k := by
  obtain ⟨k, hk⟩ := Function.ne_iff.mp hv
  exact Finset.sum_pos' (fun i _ => mul_self_nonneg (v i))
    ⟨k, Finset.mem_univ k, mul_self_pos.mpr hk⟩

lemma l2norm_pos {m : ℕ} {v : Fin m → ℝ} (hv : v ≠ 0) : 0 < l2norm v :=
  Real.sqrt_pos.mpr (sum_mul_self_pos hv)

lemma normalized_dot_eq_cosineSim {m : ℕ} (u v : Fin m → ℝ) :
    (∑ k, (u k / l2norm u) * (v k / l2norm v)) = cosineSim u v := by
  unfold cosineSim
  rw [Finset.sum_div]
  exact Finset.sum_congr rfl fun k _ => div_mul_div_comm (u k) (l2norm u) (v k) (l2norm v)

lemma cosineSim_self {m : ℕ} {v : Fin m → ℝ} (hv : v ≠ 0) : cosineSim v v = 1 := by
  unfold cosineSim
  rw [l2norm_mul_self]
  exact div_self (ne_of_gt (sum_mul_self_pos hv))

lemma l2norm_neg {m : ℕ} (v : Fin m → ℝ) : l2norm (-v) = l2norm v := by
  unfold l2norm
  congr 1
  exact Finset.sum_congr rfl fun k _ => by simp

lemma cosineSim_neg_self {m : ℕ} {v : Fin m → ℝ} (hv : v ≠ 0) :
    cosineSim v (-v) = -1 := by
  unfold cosineSim
  rw [l2norm_neg, l2norm_mul_self]
  have h1 : ∑ k, v k * (-v) k = -(∑ k, v k * v k) := by
    rw [← Finset.sum_neg_distrib]
    exact Finset.sum_congr rfl fun k _ => by simp
  rw [h1, neg_div, div_self (ne_of_gt (sum_mul_self_pos hv))]

lemma l2norm_smul {m : ℕ} {c : ℝ} (hc : 0 ≤ c) (w : Fin m → ℝ) :
    l2norm (fun k => c * w k) = c * l2norm w := by
  unfold l2norm
  have h : ∑ k, (c * w k) * (c * w k) = (c * c) * ∑ k, w k * w k := by
    rw [Finset.mul_sum]
    exact Finset.sum_congr rfl fun k _ => by ring
  rw [h, Real.sqrt_mul (mul_self_nonneg c), Real.sqrt_mul_self hc]

lemma cosineSim_smul_self {m : ℕ} {c : ℝ} (hc : 0 < c) {w : Fin m → ℝ} (hw : w ≠ 0) :
    cosineSim (fun k => c * w k) w = 1 := by
  unfold cosineSim
  rw [l2norm_smul hc.le]
  have h1 : ∑ k, (c * w k) * w k = c * ∑ k, w k * w k := by
    rw [Finset.mul_sum]
    exact Finset.sum_congr rfl fun k _ => by ring
  rw [h1, mul_assoc, l2norm_mul_self]
  exact div_self (ne_of_gt (mul_pos hc (sum_mul_self_pos hw)))

lemma l2norm_sqrt_sq {m : ℕ} (v : Fin m → ℝ) :
    l2norm v = Real.sqrt (∑ k, v k ^ 2) := by
  unfold l2norm
  congr 1
  exact Finset.sum_congr rfl fun k _ => (pow_two (v k)).symm

lemma abs_sum_mul_le {m : ℕ} (u v : Fin m → ℝ) :
    |∑ k, u k * v k| ≤ l2norm u * l2norm v := by
  rw [abs_le, l2norm_sqrt_sq, l2norm_sqrt_sq]
  constructor
  · have h := Real.sum_mul_le_sqrt_mul_sqrt Finset.univ (fun k => -u k) v
    have h2 : ∑ k, -u k * v k = -(∑ k, u k * v k) := by
      rw [← Finset.sum_neg_distrib]
      exact Finset.sum_congr rfl fun k _ => by ring
    have h3 : ∑ k, (-u k) ^ 2 = ∑ k, u k ^ 2 :=
      Finset.sum_congr rfl fun k _ => by ring
    rw [h2, h3] at h
    linarith
  · exact Real.sum_mul_le_sqrt_mul_sqrt Finset.univ u v

lemma abs_cosineSim_le_one {m : ℕ} {u v : Fin m → ℝ} (hu : u ≠ 0) (hv : v ≠ 0) :
    |cosineSim u v| ≤ 1 := by
  unfold cosineSim
  rw [abs_div]
  have hp : 0 < l2norm u * l2norm v := mul_pos (l2norm_pos hu) (l2norm_pos hv)
  rw [abs_of_pos hp]
  exact (div_le_one hp).mpr (abs_sum_mul_le u v)

lemma L_G_dist_scalar_eq_cosineSim {m : ℕ} (u v : Fin m → ℝ) :
    L_G_dist_scalar u v = 1 - cosineSim u v := by
  unfold L_G_dist_scalar
  rw [normalized_dot_eq_cosineSim]

lemma mapM_option_none_iff {α γ : Type} (g : α → Option γ) (xs : List α) :
    xs.mapM g = none ↔ ∃ x ∈ xs, g x = none := by
  rw [← List.mapM'_eq_mapM]
  induction xs with
  | nil => simp [List.mapM']
  | cons a as ih =>
    rw [List.mapM'_cons]
    cases hga : g a with
    | none =>
      exact iff_of_true (by simp [hga]) ⟨a, List.mem_cons_self a as, hga⟩
    | some b =>
      cases has : as.mapM' g with
      | none =>
        refine iff_of_true (by simp [hga, has]) ?_
        obtain ⟨x, hx, hgx⟩ := ih.mp has
        exact ⟨x, List.mem_cons_of_mem a hx, hgx⟩
      | some bs =>
        refine iff_of_false (by simp [hga, has]) ?_
        rintro ⟨x, hx, hgx⟩
        rcases List.mem_cons.mp hx with rfl | hx'
        · rw [hga] at hgx
          exact Option.some_ne_none b hgx
        · have hcontra := ih.mpr ⟨x, hx', hgx⟩
          rw [has] at hcontra
          exact Option.some_ne_none bs hcontra

lemma mapM_option_eq_map {α γ : Type} (g : α → Option γ) (g' : α → γ) (xs : List α)
    (h : ∀ x ∈ xs, g x = some (g' x)) : xs.mapM g = some (xs.map g') := by
  rw [← List.mapM'_eq_mapM]
  induction xs with
  | nil => simp [List.mapM']
  | cons a as ih =>
    rw [List.mapM'_cons]
    have ha := h a (List.mem_cons_self a as)
    have has := ih fun x hx => h x (List.mem_cons_of_mem a hx)
    simp [ha, has]

lemma tensorSetItem_replicate_none_iff (n : ℕ) (l : ℤ) :
    tensorSetItem (List.replicate n (0 : ℤ)) l 1 = none ↔
      l < -(n : ℤ) ∨ (n : ℤ) ≤ l := by
  unfold tensorSetItem
  simp only [List.length_replicate]
  split_ifs with h1 h2
  · exact iff_of_false (by simp) (by omega)
  · exact iff_of_false (by simp) (by omega)
  · exact iff_of_true rfl (by omega)

lemma tensorSetItem_replicate_some (n : ℕ) (l : ℤ)
    (h : 0 ≤ l ∧ l < (n : ℤ)) :
    tensorSetItem (List.replicate n (0 : ℤ)) l 1 =
      some ((List.replicate n (0 : ℤ)).set l.toNat 1) := by
  unfold tensorSetItem
  simp only [List.length_replicate]
  rw [if_pos h]

lemma mapBatch_length (labels : List ℤ) (r : Option (ℤ → ℤ)) :
    (mapBatch labels r).length = labels.length := by
  cases r <;> simp [mapBatch, getNodes]

/-- C1 (amended): _one_hot_encode raises if and only if some mapped label
index falls outside [-n_classes, n_classes); in particular a mapped index
below -n_classes raises, while a negative mapped index in [-n_classes, -1]
does not raise (PyTorch negative indexing sets the entry at column
n_classes + index instead). -/
theorem one_hot_encode_failure_iff (labels : List ℤ) (n_classes : ℕ)
    (reverse_index : Option (ℤ → ℤ)) :
    _one_hot_encode labels n_classes reverse_index = none ↔
      ∃ l ∈ mapBatch labels reverse_index,
        l < -(n_classes : ℤ) ∨ (n_classes : ℤ) ≤ l := by
  unfold _one_hot_encode
  rw [mapM_option_none_iff]
  constructor
  · rintro ⟨l, hl, hnone⟩
    exact ⟨l, hl, (tensorSetItem_replicate_none_iff n_classes l).mp hnone⟩
  · rintro ⟨l, hl, hout⟩
    exact ⟨l, hl, (tensorSetItem_replicate_none_iff n_classes l).mpr hout⟩

/-- C1 counterexample: with labels [-1], two classes and no reverse index,
the mapped index -1 lies outside [0, 2), yet _one_hot_encode does not
fail: it returns the matrix [[0, 1]], the 1 written into the last column
by PyTorch negative indexing. -/
theorem one_hot_encode_negative_index_counterexample :
    _one_hot_encode [-1] 2 none = some [[0, 1]] ∧
      ¬(0 ≤ (-1 : ℤ) ∧ (-1 : ℤ) < 2) := by
  constructor
  · rfl
  · decide

/-- C2: when every mapped label index lies in [0, n_classes),
_one_hot_encode succeeds and returns one row per label; each row has
length n_classes and its entry j is 1 exactly when j is the mapped label
of that row and 0 everywhere else; when the reverse index is absent the
mapped labels are the raw labels. -/
theorem one_hot_encode_spec (labels : List ℤ) (n_classes : ℕ)
    (reverse_index : Option (ℤ → ℤ))
    (h : ∀ l ∈ mapBatch labels reverse_index, 0 ≤ l ∧ l < (n_classes : ℤ)) :
    ∃ enc, _one_hot_encode labels n_classes reverse_index = some enc ∧
      enc.length = labels.length ∧
      (∀ (i : ℕ) (l : ℤ) (row : List ℤ),
        (mapBatch labels reverse_index)[i]? = some l →
        enc[i]? = some row →
        row.length = n_classes ∧
        ∀ j : ℕ, j < n_classes →
          row[j]? = some (if (j : ℤ) = l then 1 else 0)) ∧
      mapBatch labels none = labels := by
  refine ⟨(mapBatch labels reverse_index).map
      (fun l => (List.replicate n_classes (0 : ℤ)).set l.toNat 1), ?_, ?_, ?_, rfl⟩
  · unfold _one_hot_encode
    exact mapM_option_eq_map _ _ _
      fun l hl => tensorSetItem_replicate_some n_classes l (h l hl)
  · rw [List.length_map, mapBatch_length]
  · intro i l row hml henc
    rw [List.getElem?_map, hml, Option.map_some'] at henc
    have hrow := Option.some.inj henc
    subst hrow
    have hl := h l (List.getElem?_mem hml)
    refine ⟨by simp, ?_⟩
    intro j hj
    rcases eq_or_ne l.toNat j with heq | hne
    · subst heq
      rw [List.getElem?_set_self (by simp; omega)]
      rw [if_pos (by omega)]
    · rw [List.getElem?_set_ne hne, List.getElem?_replicate_of_lt hj]
      rw [if_neg (by omega)]

/-- C2 witness: labels [0, 1] with two classes and no reverse index are
all in range and the encoding succeeds. -/
theorem one_hot_encode_spec_witness :
    (∀ l ∈ mapBatch [0, 1] none, 0 ≤ l ∧ l < (2 : ℤ)) ∧
      ∃ enc, _one_hot_encode [0, 1] 2 none = some enc ∧
        enc.length = ([0, 1] : List ℤ).length :=
  ⟨by decide, by
    obtain ⟨enc, h1, h2, _⟩ := one_hot_encode_spec [0, 1] 2 none (by decide)
    exact ⟨enc, h1, h2⟩⟩

/-- C6: when the reverse index collaborator is None, map_to_outputs is the
identity on its labels argument, whether that is a single int, a tensor
batch, or any other value. -/
theorem map_to_outputs_none_identity (labels : Labels) :
    map_to_outputs labels none = some labels := rfl

/-- C10: when the reverse index is present and the labels argument is
neither a plain int nor a tensor, map_to_outputs falls through both
type-dispatch branches and returns Python None. -/
theorem map_to_outputs_other_none (f : ℤ → ℤ) :
    map_to_outputs .other (some f) = none := rfl

/-- C7: joinSubsets keeps the base dataset and concatenates the index
lists of the given subsets in input order, with no deduplication (the
result index list is exactly the flattening, so duplicates across subsets
stay duplicated). -/
theorem joinSubsets_spec {α : Type} (dataset : α) (subsets : List (Subset α)) :
    (joinSubsets dataset subsets).dataset = dataset ∧
      (joinSubsets dataset subsets).indices =
        (subsets.map Subset.indices).flatten := by
  refine ⟨rfl, ?_⟩
  unfold joinSubsets
  suffices hgen : ∀ (ss : List (Subset α)) (acc : List ℤ),
      ss.foldl (fun acc s => acc ++ s.indices) acc =
        acc ++ (ss.map Subset.indices).flatten by
    simpa using hgen subsets []
  intro ss
  induction ss with
  | nil => intro acc; simp
  | cons s ss ih =>
    intro acc
    simp [ih, List.append_assoc]

/-- C3: every entry (i, j) of CosineNormalizationLayer.forward equals the
cosine similarity of input row i and weight row j, multiplied by sigma
when that parameter is present and left unscaled when it is absent; hence
when input row i is a positive multiple of a nonzero weight row j the
entry is exactly the scale factor (sigma, or 1 without sigma). -/
theorem cosine_layer_forward_spec {nin nout b : ℕ}
    (layer : CosineNormalizationLayer nin nout) (input : Fin b → Fin nin → ℝ)
    (i : Fin b) (j : Fin nout) :
    layer.forward input i j =
      sigVal layer.sigma * cosineSim (input i) (layer.weight j) ∧
    (∀ c : ℝ, 0 < c → (∀ k, input i k = c * layer.weight j k) →
      layer.weight j ≠ 0 → layer.forward input i j = sigVal layer.sigma) := by
  obtain ⟨w, sg⟩ := layer
  have hmain : CosineNormalizationLayer.forward ⟨w, sg⟩ input i j =
      sigVal sg * cosineSim (input i) (w j) := by
    cases sg with
    | none =>
      show linear (normalizeRows input) (normalizeRows w) i j = sigVal none * _
      unfold linear normalizeRows sigVal
      rw [normalized_dot_eq_cosineSim, one_mul]
    | some s =>
      show s * linear (normalizeRows input) (normalizeRows w) i j = sigVal (some s) * _
      unfold linear normalizeRows sigVal
      rw [normalized_dot_eq_cosineSim]
  refine ⟨hmain, ?_⟩
  intro c hc hik hw
  rw [hmain]
  have hrow : input i = fun k => c * w j k := funext hik
  rw [hrow, cosineSim_smul_self hc hw, mul_one]

/-- C3 witness: a 1 × 1 layer with weight row (1), sigma = 3, and input
row (2) = 2 · (1) produces entry sigma. -/
theorem cosine_layer_forward_spec_witness :
    (0 : ℝ) < 2 ∧
      CosineNormalizationLayer.forward
        (⟨fun _ _ => (1 : ℝ), some 3⟩ : CosineNormalizationLayer 1 1)
        (fun (_ : Fin 1) (_ : Fin 1) => (2 : ℝ)) 0 0 = sigVal (some 3) :=
  ⟨by norm_num,
    (cosine_layer_forward_spec
        (⟨fun _ _ => (1 : ℝ), some 3⟩ : CosineNormalizationLayer 1 1)
        (fun (_ : Fin 1) (_ : Fin 1) => (2 : ℝ)) 0 0).2 2 (by norm_num)
      (fun k => by norm_num)
      (by
        intro hzero
        have h0 := congrFun hzero 0
        norm_num at h0)⟩

/-- C4: the cosine-distance scalar is 0 between a nonzero vector and
itself, 2 between a nonzero vector and its negation, and lies in [0, 2]
for every pair of nonzero vectors. -/
theorem L_G_dist_scalar_spec {m : ℕ} (v u w : Fin m → ℝ) :
    (v ≠ 0 → L_G_dist_scalar v v = 0 ∧ L_G_dist_scalar v (-v) = 2) ∧
    (u ≠ 0 → w ≠ 0 → 0 ≤ L_G_dist_scalar u w ∧ L_G_dist_scalar u w ≤ 2) := by
  constructor
  · intro hv
    constructor
    · rw [L_G_dist_scalar_eq_cosineSim, cosineSim_self hv]
      norm_num
    · rw [L_G_dist_scalar_eq_cosineSim, cosineSim_neg_self hv]
      norm_num
  · intro hu hw
    have habs := abs_cosineSim_le_one hu hw
    rw [abs_le] at habs
    rw [L_G_dist_scalar_eq_cosineSim]
    constructor <;> linarith [habs.1, habs.2]

/-- C4 witness: the one-dimensional vector (1) is nonzero and its
cosine distance to itself is 0. -/
theorem L_G_dist_scalar_spec_witness :
    ((fun _ : Fin 1 => (1 : ℝ)) ≠ 0) ∧
      L_G_dist_scalar (fun _ : Fin 1 => (1 : ℝ)) (fun _ : Fin 1 => (1 : ℝ)) = 0 := by
  have hne : (fun _ : Fin 1 => (1 : ℝ)) ≠ 0 := by
    intro hzero
    have h0 := congrFun hzero 0
    norm_num at h0
  exact ⟨hne,
    ((L_G_dist_scalar_spec (fun _ : Fin 1 => (1 : ℝ))
        (fun _ => 1) (fun _ => 1)).1 hne).1⟩

/-- C5: on a batch of n > 0 rows of nonzero features, L_G_dist with
reduce "sum" is a scalar equal to n times the scalar of L_G_dist with
reduce "mean", and with any other reduce value it returns the unreduced
per-row distance vector. -/
theorem L_G_dist_reduce_spec {n m : ℕ} (feat_old feat_new : Fin n → Fin m → ℝ)
    (hn : 0 < n) (hold : ∀ i, feat_old i ≠ 0) (hnew : ∀ i, feat_new i ≠ 0) :
    (∃ s mv : ℝ, L_G_dist feat_old feat_new "sum" = .scalar s ∧
      L_G_dist feat_old feat_new "mean" = .scalar mv ∧ s = n * mv) ∧
    (∀ reduce : String, reduce ≠ "mean" → reduce ≠ "sum" →
      L_G_dist feat_old feat_new reduce =
        .vector (fun i => L_G_dist_scalar (feat_old i) (feat_new i))) := by
  have hncast : (n : ℝ) ≠ 0 := Nat.cast_ne_zero.mpr hn.ne'
  constructor
  · refine ⟨∑ i, L_G_dist_scalar (feat_old i) (feat_new i),
      (∑ i, L_G_dist_scalar (feat_old i) (feat_new i)) / n, ?_, ?_, ?_⟩
    · simp [L_G_dist]
    · simp [L_G_dist]
    · rw [mul_comm]
      exact (div_mul_cancel₀ _ hncast).symm
  · intro reduce h1 h2
    simp only [L_G_dist]
    rw [if_neg h1, if_neg h2]

/-- C5 witness: a batch of one nonzero row; the sum reduction equals
n = 1 times the mean reduction. -/
theorem L_G_dist_reduce_spec_witness :
    0 < 1 ∧
      ∃ s mv : ℝ,
        L_G_dist (fun (_ : Fin 1) (_ : Fin 1) => (1 : ℝ)) (fun _ _ => 1) "sum" =
          .scalar s ∧
        L_G_dist (fun (_ : Fin 1) (_ : Fin 1) => (1 : ℝ)) (fun _ _ => 1) "mean" =
          .scalar mv ∧
        s = ((1 : ℕ) : ℝ) * mv := by
  have hne : ∀ i : Fin 1, (fun (_ : Fin 1) (_ : Fin 1) => (1 : ℝ)) i ≠ 0 := by
    intro i hzero
    have h0 := congrFun hzero 0
    norm_num at h0
  exact ⟨Nat.one_pos,
    (L_G_dist_reduce_spec (fun _ _ => (1 : ℝ)) (fun _ _ => (1 : ℝ))
      Nat.one_pos hne hne).1⟩

/-- C8 counterexample: with an empty accuracies sequence and a 1 × 1
confusion matrix, the loop reads accuracies[0] and raises IndexError, so
writeMetrics produces no record at all (in particular none with 10
accuracies entries). -/
theorem writeMetrics_short_accuracies_counterexample :
    writeMetrics "icarl" 30 ([] : List ℚ) [[(1 : ℚ)]] = none := rfl

/-- C8 (amended): when the accuracies sequence has at least 10 entries,
the record writeMetrics serializes has exactly 10 accuracies entries, the
i-th mapping class count 10·(i+1) to accuracies[i], and exactly one cm
entry per confusion-matrix row, the j-th mapping row index j to the j-th
row values. -/
theorem writeMetrics_spec {α β : Type} (method : String) (seed : ℤ)
    (accuracies : List α) (cm : List (List β))
    (h : 10 ≤ accuracies.length) :
    ∃ d, writeMetrics method seed accuracies cm = some d ∧
      d.accuracies.length = 10 ∧
      (∀ (i : ℕ) (a : α), i < 10 → accuracies[i]? = some a →
        d.accuracies[i]? = some (10 * (i + 1), a)) ∧
      d.cm.length = cm.length ∧
      (∀ (j : ℕ) (row : List β), cm[j]? = some row →
        d.cm[j]? = some (j, row)) := by
  rcases accuracies with _ | ⟨a0, _ | ⟨a1, _ | ⟨a2, _ | ⟨a3, _ | ⟨a4, _ |
    ⟨a5, _ | ⟨a6, _ | ⟨a7, _ | ⟨a8, _ | ⟨a9, rest⟩⟩⟩⟩⟩⟩⟩⟩⟩⟩
  all_goals try (exact absurd h (by simp only [List.length_nil, List.length_cons]; omega))
  refine ⟨⟨[(10, a0), (20, a1), (30, a2), (40, a3), (50, a4), (60, a5),
      (70, a6), (80, a7), (90, a8), (100, a9)], cm.enum⟩, rfl, rfl, ?_, ?_, ?_⟩
  · intro i a hi ha
    interval_cases i <;> simp_all
  · simp [List.enum_length]
  · intro j row hj
    simp [List.getElem?_enum, hj]

/-- C8 witness: ten accuracies and a singleton confusion matrix satisfy
the length hypothesis and the record exists. -/
theorem writeMetrics_spec_witness :
    10 ≤ ([0, 1, 2, 3, 4, 5, 6, 7, 8, 9] : List ℕ).length ∧
      ∃ d, writeMetrics "lwf" 42 ([0, 1, 2, 3, 4, 5, 6, 7, 8, 9] : List ℕ)
          [[(5 : ℕ)]] = some d ∧ d.accuracies.length = 10 :=
  ⟨by decide, by
    obtain ⟨d, h1, h2, _⟩ :=
      writeMetrics_spec "lwf" 42 ([0, 1, 2, 3, 4, 5, 6, 7, 8, 9] : List ℕ)
        [[(5 : ℕ)]] (by decide)
    exact ⟨d, h1, h2⟩⟩

/-- C9: getHyperparams is a fixed total mapping with exactly the eleven
documented keys in insertion order and the default values of the source;
MILESTONES is a strictly increasing sequence of epoch indices. -/
theorem getHyperparams_spec :
    getHyperparams.map Prod.fst =
      ["LR", "MOMENTUM", "WEIGHT_DECAY", "NUM_EPOCHS", "MILESTONES",
       "BATCH_SIZE", "DEVICE", "GAMMA", "SEED", "LOG_FREQUENCY",
       "NUM_CLASSES"] ∧
    getHyperparams.length = 11 ∧
    getHyperparams.lookup "LR" = some (.num 2) ∧
    getHyperparams.lookup "MOMENTUM" = some (.num (9 / 10)) ∧
    getHyperparams.lookup "WEIGHT_DECAY" = some (.num (1 / 100000)) ∧
    getHyperparams.lookup "NUM_EPOCHS" = some (.num 70) ∧
    getHyperparams.lookup "MILESTONES" = some (.list [49, 63]) ∧
    getHyperparams.lookup "BATCH_SIZE" = some (.num 128) ∧
    getHyperparams.lookup "DEVICE" = some (.str "cuda") ∧
    getHyperparams.lookup "GAMMA" = some (.num (2 / 10)) ∧
    getHyperparams.lookup "SEED" = some (.num 66) ∧
    getHyperparams.lookup "LOG_FREQUENCY" = some (.num 10) ∧
    getHyperparams.lookup "NUM_CLASSES" = some (.num 100) ∧
    List.Chain' (· < ·) [49, 63] :=
  ⟨rfl, rfl, rfl, rfl, rfl, rfl, rfl, rfl, rfl, rfl, rfl, rfl, rfl,
    by simp [List.chain'_cons]⟩

end Progetto
